import Mathlib

/-!
Verification of the Klein-bottle Game of Life engine (kleinlife).

The development shallowly embeds the two implementations of the twisted
grid topology and the update step:

* the GPU compute shader `src/life.wgsl` (`cellIndex`, `cellActive`,
  `computeMain`), whose arithmetic is unsigned 32-bit, modelled on `Nat`
  with explicit reduction modulo `2 ^ 32`;
* the CPU class `ToroidalLife` in `src/life.ts` (`isPowerOf2`, the
  constructor validation, `setCell`, `drawXStripe`, `setRandom`,
  `update`), whose JavaScript bitwise operators coerce to 32-bit
  two's-complement integers, modelled on `Int` via `toInt32`/`jsAnd`.
-/

namespace KleinLife

/-! ### Unsigned 32-bit arithmetic (WGSL `u32`)

A `u32` value is a `Nat` strictly below `U = 2 ^ 32`; each operation
reduces modulo `U` exactly as WGSL wraparound arithmetic does. -/

def U : Nat := 2 ^ 32

/-- `u32` addition with wraparound. -/
def uadd (a b : Nat) : Nat := (a + b) % U

/-- `u32` subtraction with wraparound (callers pass canonical values `< U`,
so the `Nat` truncated subtraction inside never underflows). -/
def usub (a b : Nat) : Nat := (a + (U - b)) % U

/-- `u32` multiplication with wraparound. -/
def umul (a b : Nat) : Nat := (a * b) % U

/-- From `src/life.wgsl`, `fn cellIndex(cell: vec2u) -> u32`:

    let x = cell.x % width;
    let y = cell.y % height;
    if (cell.x >= width) {
      return ((height / 2 - 1 - y) % height) * width + x;
    }
    return y * width + x;

Arguments `x y` are the `u32` components of `cell` (canonical, `< U`);
`w h` are the grid dimensions (`u32(grid.x)`, `u32(grid.y)`).  WGSL `/`
on `u32` is `Nat` division, and `height / 2 - 1 - y` wraps around, hence
the nested `usub`. -/
def cellIndex (w h x y : Nat) : Nat :=
  let x0 := x % w
  let y0 := y % h
  if w ≤ x then
    uadd (umul (usub (usub (h / 2) 1) y0 % h) w) x0
  else
    uadd (umul y0 w) x0

/-! ### JavaScript 32-bit bitwise coercion

A JS bitwise operator converts each operand with `ToInt32` (wrap modulo
`2 ^ 32`, then reinterpret as a signed 32-bit value), operates on the 32
bit patterns, and reinterprets the result as a signed 32-bit value. -/

/-- Reinterpret the low 32 bits `n < 2 ^ 32` as a signed 32-bit value. -/
def toInt32 (n : Nat) : Int := if n < 2 ^ 31 then (n : Int) else (n : Int) - 2 ^ 32

/-- JavaScript `a & b` on integral values: `ToInt32` both operands,
bitwise AND of the 32-bit patterns, result reinterpreted as signed.
Taking `Int % (2 ^ 32)` yields exactly the operand's low 32 bits, for
negative operands too, so the `Nat` AND below is the 32-bit pattern AND. -/
def jsAnd (a b : Int) : Int :=
  toInt32 ((a % (2 ^ 32)).toNat &&& (b % (2 ^ 32)).toNat)

/-- From `src/life.ts`:

    function isPowerOf2(n: number): boolean {
      return n > 0 && (n & (n - 1)) === 0 && n === Math.floor(n);
    }

modelled on `Int` (the `Math.floor` self-test holds identically for
integral inputs, which is the only case the claims quantify over). -/
def isPowerOf2 (n : Int) : Bool :=
  decide (0 < n) && decide (jsAnd n (n - 1) = 0)

/-- The `ToroidalLife` constructor validation (`src/life.ts`):

    if (!isPowerOf2(tubularSegments) || !isPowerOf2(radialSegments)) {
      throw new Error('Grid dimensions must be powers of 2');
    }

`validDims w h = true` iff construction succeeds (no throw); the check
is the only dimension validation in the class — no later lookup
re-validates. -/
def validDims (w h : Int) : Bool := isPowerOf2 w && isPowerOf2 h

/-- From `src/life.ts`, `setCell(x, y, state = 1)`; the flat index the
write lands on:

    const y0 = ((x & this.grid_size_x)
      ? this.grid_size_y / 2 - 1 - y
      : y) & (this.grid_size_y - 1);
    const x0 = x & (this.grid_size_x - 1);
    this.cellStateArray[y0 * this.grid_size_x + x0] = state;

`h / 2` is exact whenever `h` is even (the only odd power of two is
`h = 1`, where the trailing `& (h - 1) = & 0` makes `y0 = 0` under both
JS float and integer division, so the `Int` division below is faithful). -/
def setCellIndex (w h x y : Int) : Int :=
  let y0 := jsAnd (if jsAnd x w ≠ 0 then h / 2 - 1 - y else y) (h - 1)
  let x0 := jsAnd x (w - 1)
  y0 * w + x0

/-! ### Arithmetic toolkit -/

theorem uadd_eq_of_lt {a b : Nat} (h : a + b < U) : uadd a b = a + b :=
  Nat.mod_eq_of_lt h

theorem umul_eq_of_lt {a b : Nat} (h : a * b < U) : umul a b = a * b :=
  Nat.mod_eq_of_lt h

theorem usub_eq_of_le {a b : Nat} (hb : b ≤ a) (ha : a < U) : usub a b = a - b := by
  unfold usub U at *
  have h1 : b ≤ 2 ^ 32 := le_trans hb (le_of_lt ha)
  have h2 : a + (2 ^ 32 - b) = 2 ^ 32 + (a - b) := by omega
  rw [h2, Nat.add_mod_left]
  exact Nat.mod_eq_of_lt (by omega)

/-- Testing bit `k` of `m` reads off whether the remainder of `m` modulo
`2 ^ (k + 1)` reaches `2 ^ k`, i.e. whether `m` sits in an odd
`2 ^ k`-band. -/
theorem and_two_pow_ne_zero_iff (m k : Nat) :
    m &&& 2 ^ k ≠ 0 ↔ 2 ^ k ≤ m % 2 ^ (k + 1) := by
  have hpos : 0 < 2 ^ k := Nat.two_pow_pos k
  have hdiv : m % 2 ^ (k + 1) / 2 ^ k = m / 2 ^ k % 2 := by
    rw [pow_succ, Nat.mod_mul_right_div_self]
  have hlt : m % 2 ^ (k + 1) < 2 ^ k * 2 := by
    rw [← pow_succ]
    exact Nat.mod_lt _ (Nat.two_pow_pos _)
  have key : 2 ^ k ≤ m % 2 ^ (k + 1) ↔ m / 2 ^ k % 2 = 1 := by
    rw [← hdiv]
    constructor
    · intro hle
      have h1 : 1 ≤ m % 2 ^ (k + 1) / 2 ^ k := (Nat.one_le_div_iff hpos).mpr hle
      have h2 : m % 2 ^ (k + 1) / 2 ^ k < 2 := Nat.div_lt_of_lt_mul hlt
      omega
    · intro h1
      exact (Nat.one_le_div_iff hpos).mp (by omega)
  rw [Nat.and_two_pow, Nat.testBit_to_div_mod, key]
  rcases Nat.mod_two_eq_zero_or_one (m / 2 ^ k) with h | h <;> simp [h]

/-- `m &&& (m - 1) = 0` characterises the positive powers of two. -/
theorem pow_two_of_and_pred_eq_zero :
    ∀ m, 0 < m → m &&& (m - 1) = 0 → ∃ k, m = 2 ^ k := by
  intro m
  induction m using Nat.strong_induction_on with
  | _ m ih =>
    intro hm h
    rcases Nat.even_or_odd m with he | ho
    · obtain ⟨n, hn⟩ := he
      have hm2 : m = 2 * n := by omega
      have hnpos : 0 < n := by omega
      subst hm2
      have h1 : 2 * n = Nat.bit false n := by simp [Nat.bit_val]
      have h2 : 2 * n - 1 = Nat.bit true (n - 1) := by
        simp only [Nat.bit_val, Bool.toNat_true]
        omega
      rw [h2, h1, Nat.land_bit] at h
      simp only [Bool.false_and, Nat.bit_val, Bool.toNat_false, Nat.add_zero] at h
      have h3 : n &&& (n - 1) = 0 := by omega
      obtain ⟨k, hk⟩ := ih n (by omega) hnpos h3
      exact ⟨k + 1, by rw [hk, pow_succ, Nat.mul_comm]⟩
    · obtain ⟨n, hn⟩ := ho
      rcases Nat.eq_zero_or_pos n with hn0 | hnpos
      · exact ⟨0, by omega⟩
      · exfalso
        have h1 : m = Nat.bit true n := by simp [Nat.bit_val]; omega
        have h2 : m - 1 = Nat.bit false n := by simp [Nat.bit_val]; omega
        rw [h2, h1, Nat.land_bit] at h
        simp only [Bool.and_false, Nat.bit_val, Bool.toNat_false, Nat.add_zero,
          Nat.and_self] at h
        omega

theorem and_pred_eq_zero_of_pow_two (k : Nat) : 2 ^ k &&& (2 ^ k - 1) = 0 := by
  have h := Nat.and_pow_two_sub_one_eq_mod (2 ^ k) k
  simp only [Nat.mod_self] at h
  exact h

/-! ### `jsAnd` on power-of-two masks -/

theorem emod_U_nonneg (a : Int) : 0 ≤ a % (2 ^ 32) :=
  Int.emod_nonneg a (by norm_num)

theorem emod_U_toNat_cast (a : Int) :
    ((a % (2 ^ 32)).toNat : Int) = a % (2 ^ 32) :=
  Int.toNat_of_nonneg (emod_U_nonneg a)

/-- JS `x & (2^k - 1)` extracts `x` modulo `2^k` (for masks that fit in
a signed 32-bit value, i.e. `k ≤ 31`). -/
theorem jsAnd_mask (x : Int) {k : Nat} (hk : k ≤ 31) :
    jsAnd x (2 ^ k - 1) = x % (2 ^ k) := by
  have hone : (1 : Nat) ≤ 2 ^ k := Nat.one_le_two_pow
  have hcast : ((2 ^ k - 1 : Nat) : Int) = (2 : Int) ^ k - 1 := by
    rw [Nat.cast_sub hone]
    push_cast
    ring
  have hk32 : (2 : Nat) ^ k ≤ 2 ^ 31 := Nat.pow_le_pow_right (by norm_num) hk
  have hnn : (0 : Int) ≤ (2 : Int) ^ k - 1 := by
    have := pow_pos (show (0 : Int) < 2 by norm_num) k
    omega
  have hlt : (2 : Int) ^ k - 1 < 2 ^ 32 := by
    have : ((2 : Nat) ^ k : Int) ≤ ((2 : Nat) ^ 31 : Int) := by exact_mod_cast hk32
    push_cast at this
    omega
  have hb : ((2 : Int) ^ k - 1) % (2 ^ 32) = (2 : Int) ^ k - 1 :=
    Int.emod_eq_of_lt hnn hlt
  have hbn : ((2 : Int) ^ k - 1).toNat = 2 ^ k - 1 := by
    rw [← hcast, Int.toNat_natCast]
  unfold jsAnd toInt32
  rw [hb, hbn, Nat.and_pow_two_sub_one_eq_mod]
  set m : Nat := (x % (2 ^ 32)).toNat with hm
  have hlt31 : m % 2 ^ k < 2 ^ 31 :=
    lt_of_lt_of_le (Nat.mod_lt _ (Nat.two_pow_pos k)) hk32
  rw [if_pos hlt31]
  have hdvd : ((2 : Int) ^ k) ∣ ((2 : Int) ^ 32) := pow_dvd_pow 2 (le_trans hk (by norm_num))
  calc ((m % 2 ^ k : Nat) : Int)
      = (m : Int) % ((2 : Nat) ^ k : Int) := by push_cast; ring_nf
    _ = x % (2 ^ 32) % (2 : Int) ^ k := by rw [hm, emod_U_toNat_cast]; norm_num
    _ = x % (2 ^ k) := Int.emod_emod_of_dvd x hdvd

/-- JS `x & 2^k` is nonzero exactly when `x` lies in an odd
`2^k`-band, i.e. `2^k ≤ x mod 2^(k+1)` (for `k ≤ 30` so the mask and
result are positive in 32 bits). -/
theorem jsAnd_two_pow_ne_zero_iff (x : Int) {k : Nat} (hk : k ≤ 30) :
    jsAnd x (2 ^ k) ≠ 0 ↔ 2 ^ k ≤ x % (2 ^ (k + 1)) := by
  have hk32 : (2 : Nat) ^ k ≤ 2 ^ 30 := Nat.pow_le_pow_right (by norm_num) hk
  have hnn : (0 : Int) ≤ (2 : Int) ^ k := by positivity
  have hlt : (2 : Int) ^ k < 2 ^ 32 := by
    have : ((2 : Nat) ^ k : Int) ≤ ((2 : Nat) ^ 30 : Int) := by exact_mod_cast hk32
    push_cast at this
    omega
  have hb : ((2 : Int) ^ k) % (2 ^ 32) = (2 : Int) ^ k := Int.emod_eq_of_lt hnn hlt
  have hbn : ((2 : Int) ^ k).toNat = 2 ^ k := by
    have : (((2 : Nat) ^ k : Nat) : Int) = (2 : Int) ^ k := by push_cast; ring
    rw [← this, Int.toNat_natCast]
  unfold jsAnd toInt32
  rw [hb, hbn]
  set m : Nat := (x % (2 ^ 32)).toNat with hm
  have hle : m &&& 2 ^ k ≤ 2 ^ k := Nat.and_le_right
  have hlt31 : m &&& 2 ^ k < 2 ^ 31 :=
    lt_of_le_of_lt (le_trans hle hk32) (by norm_num)
  rw [if_pos hlt31]
  have hcast : ((m &&& 2 ^ k : Nat) : Int) ≠ 0 ↔ m &&& 2 ^ k ≠ 0 := by
    constructor <;> intro h h2 <;> apply h
    · exact_mod_cast h2
    · exact_mod_cast h2
  rw [hcast, and_two_pow_ne_zero_iff]
  have hdvd : ((2 : Int) ^ (k + 1)) ∣ ((2 : Int) ^ 32) :=
    pow_dvd_pow 2 (by omega)
  have hmod : ((m % 2 ^ (k + 1) : Nat) : Int) = x % (2 ^ (k + 1)) := by
    calc ((m % 2 ^ (k + 1) : Nat) : Int)
        = (m : Int) % ((2 : Nat) ^ (k + 1) : Int) := by push_cast; ring_nf
      _ = x % (2 ^ 32) % (2 : Int) ^ (k + 1) := by rw [hm, emod_U_toNat_cast]; norm_num
      _ = x % (2 ^ (k + 1)) := Int.emod_emod_of_dvd x hdvd
  constructor
  · intro h
    have : ((2 ^ k : Nat) : Int) ≤ ((m % 2 ^ (k + 1) : Nat) : Int) := by exact_mod_cast h
    rw [hmod] at this
    exact_mod_cast this
  · intro h
    have : ((2 ^ k : Nat) : Int) ≤ ((m % 2 ^ (k + 1) : Nat) : Int) := by
      rw [hmod]; exact_mod_cast h
    exact_mod_cast this

/-! ### Normal forms of the two resolutions -/

/-- On a power-of-two grid the CPU `setCell` index computes: mask `x`,
test the odd/even `width`-band of `x`, reflect-and-mask `y` in odd
bands. -/
theorem setCellIndex_eq {kw kh : Nat} (hkw : kw ≤ 30) (hkh : kh ≤ 31) (x y : Int) :
    setCellIndex (2 ^ kw) (2 ^ kh) x y =
      (if 2 ^ kw ≤ x % (2 ^ (kw + 1))
         then ((2 : Int) ^ kh / 2 - 1 - y) % (2 ^ kh)
         else y % (2 ^ kh)) * 2 ^ kw + x % (2 ^ kw) := by
  simp only [setCellIndex]
  rw [jsAnd_mask x (le_trans hkw (by norm_num)), jsAnd_mask _ hkh,
    apply_ite (fun t : Int => t % (2 ^ kh))]
  by_cases hband : (2 : Int) ^ kw ≤ x % (2 ^ (kw + 1))
  · rw [if_pos ((jsAnd_two_pow_ne_zero_iff x hkw).mpr hband), if_pos hband]
  · rw [if_neg (fun hc => hband ((jsAnd_two_pow_ne_zero_iff x hkw).mp hc)),
      if_neg hband]

/-- On a power-of-two grid the GPU `cellIndex` wraparound arithmetic
never overflows: the index is the plain `Nat` expression. -/
theorem cellIndex_eq {w h : Nat} (hw : 0 < w) (hh : 0 < h) (hwh : w * h ≤ U)
    (x y : Nat) :
    cellIndex w h x y =
      (if w ≤ x then usub (usub (h / 2) 1) (y % h) % h else y % h) * w + x % w := by
  have hyb : ∀ a : Nat, a % h < h := fun a => Nat.mod_lt _ hh
  have hmul : ∀ a : Nat, a % h * w < U := fun a => by
    calc a % h * w < h * w := by
          exact (Nat.mul_lt_mul_right hw).mpr (hyb a)
      _ = w * h := Nat.mul_comm _ _
      _ ≤ U := hwh
  have hsum : ∀ a : Nat, a % h * w + x % w < U := fun a => by
    have hx : x % w < w := Nat.mod_lt _ hw
    have : a % h * w + x % w < h * w := by
      calc a % h * w + x % w < a % h * w + w := by omega
        _ ≤ (h - 1) * w + w := by
            have := hyb a
            exact Nat.add_le_add_right (Nat.mul_le_mul_right w (by omega)) w
        _ = h * w := by
            have h1 : 1 ≤ h := hh
            calc (h - 1) * w + w = (h - 1 + 1) * w := by ring
              _ = h * w := by rw [Nat.sub_add_cancel h1]
    calc a % h * w + x % w < h * w := this
      _ = w * h := Nat.mul_comm _ _
      _ ≤ U := hwh
  simp only [cellIndex]
  split
  · rw [umul_eq_of_lt (hmul _), uadd_eq_of_lt (hsum _)]
  · rw [umul_eq_of_lt (hmul _), uadd_eq_of_lt (hsum _)]

/-- Inside the dispatch domain the GPU index is the row-major encoding. -/
theorem cellIndex_in_domain {w h : Nat} (hw : 0 < w) (hh : 0 < h)
    (hwh : w * h ≤ U) {x y : Nat} (hx : x < w) (hy : y < h) :
    cellIndex w h x y = y * w + x := by
  rw [cellIndex_eq hw hh hwh, if_neg (by omega), Nat.mod_eq_of_lt hy,
    Nat.mod_eq_of_lt hx]

/-- Row-major encoding is injective on the domain. -/
theorem encode_inj {w : Nat} {x1 x2 y1 y2 : Nat} (hx1 : x1 < w) (hx2 : x2 < w)
    (he : y1 * w + x1 = y2 * w + x2) : x1 = x2 ∧ y1 = y2 := by
  have h1 : (y1 * w + x1) % w = x1 := by
    rw [Nat.add_comm, Nat.add_mul_mod_self_right, Nat.mod_eq_of_lt hx1]
  have h2 : (y2 * w + x2) % w = x2 := by
    rw [Nat.add_comm, Nat.add_mul_mod_self_right, Nat.mod_eq_of_lt hx2]
  have hx : x1 = x2 := by rw [← h1, ← h2, he]
  refine ⟨hx, ?_⟩
  have hw : 0 < w := by omega
  have : y1 * w = y2 * w := by omega
  exact Nat.eq_of_mul_eq_mul_right hw this

/-! ### Band arithmetic on `Int` -/

theorem two_pow_succ_int (k : Nat) : (2 : Int) ^ (k + 1) = 2 ^ k * 2 := pow_succ 2 k

/-- Adding one width moves `x` to the other band and keeps the offset. -/
theorem emod_add_pow_band (x : Int) (k : Nat) :
    (x + 2 ^ k) % (2 ^ (k + 1)) =
      if 2 ^ k ≤ x % (2 ^ (k + 1)) then x % (2 ^ (k + 1)) - 2 ^ k
      else x % (2 ^ (k + 1)) + 2 ^ k := by
  have hk : (0 : Int) < 2 ^ k := pow_pos (by norm_num) k
  have hn : (0 : Int) < 2 ^ (k + 1) := pow_pos (by norm_num) (k + 1)
  have hsucc := two_pow_succ_int k
  have hr0 : 0 ≤ x % (2 ^ (k + 1)) := Int.emod_nonneg x (by omega)
  have hr1 : x % (2 ^ (k + 1)) < 2 ^ (k + 1) := Int.emod_lt_of_pos x hn
  have hsmall : ((2 : Int) ^ k) % (2 ^ (k + 1)) = 2 ^ k :=
    Int.emod_eq_of_lt (le_of_lt hk) (by omega)
  rw [Int.add_emod, hsmall]
  set r := x % (2 ^ (k + 1)) with hr
  by_cases hb : (2 : Int) ^ k ≤ r
  · rw [if_pos hb]
    have : (r + 2 ^ k) % (2 ^ (k + 1)) = (r + 2 ^ k - 2 ^ (k + 1)) % (2 ^ (k + 1)) :=
      (Int.emod_sub_cancel _ _).symm
    rw [this]
    have heq : r + 2 ^ k - 2 ^ (k + 1) = r - 2 ^ k := by omega
    rw [heq]
    exact Int.emod_eq_of_lt (by omega) (by omega)
  · rw [if_neg hb]
    exact Int.emod_eq_of_lt (by omega) (by omega)

/-- The CPU index only depends on `x` through `x mod 2·width`. -/
theorem setCellIndex_emod_period {kw kh : Nat} (hkw : kw ≤ 30) (hkh : kh ≤ 31)
    (x y : Int) :
    setCellIndex (2 ^ kw) (2 ^ kh) x y =
      setCellIndex (2 ^ kw) (2 ^ kh) (x % (2 ^ (kw + 1))) y := by
  rw [setCellIndex_eq hkw hkh, setCellIndex_eq hkw hkh, Int.emod_emod,
    Int.emod_emod_of_dvd x (pow_dvd_pow 2 (Nat.le_succ kw))]

/-- CPU double-crossing law: two widths of `x` return to the same cell. -/
theorem setCellIndex_add_two_width {kw kh : Nat} (hkw : kw ≤ 30) (hkh : kh ≤ 31)
    (x y : Int) :
    setCellIndex (2 ^ kw) (2 ^ kh) (x + 2 * 2 ^ kw) y =
      setCellIndex (2 ^ kw) (2 ^ kh) x y := by
  have h1 : x + 2 * 2 ^ kw = x + 2 ^ (kw + 1) * 1 := by
    rw [two_pow_succ_int]; ring
  have h2 : x + 2 * 2 ^ kw = x + 2 ^ kw * 2 := by ring
  rw [setCellIndex_eq hkw hkh, setCellIndex_eq hkw hkh]
  rw [show (x + 2 * 2 ^ kw) % (2 ^ (kw + 1)) = x % (2 ^ (kw + 1)) by
      rw [h1, Int.add_mul_emod_self_left],
    show (x + 2 * 2 ^ kw) % (2 ^ kw) = x % (2 ^ kw) by
      rw [h2, Int.add_mul_emod_self_left]]

/-- CPU single-crossing law: one width of `x` reflects `y` about the
tube midline (the reflected `y` is then masked like any other input). -/
theorem setCellIndex_add_width {kw kh : Nat} (hkw : kw ≤ 30) (hkh : kh ≤ 31)
    (x y : Int) :
    setCellIndex (2 ^ kw) (2 ^ kh) (x + 2 ^ kw) y =
      setCellIndex (2 ^ kw) (2 ^ kh) x ((2 : Int) ^ kh / 2 - 1 - y) := by
  have hmask : (x + 2 ^ kw) % (2 ^ kw) = x % (2 ^ kw) := by
    rw [show x + 2 ^ kw = x + 2 ^ kw * 1 by ring, Int.add_mul_emod_self_left]
  rw [setCellIndex_eq hkw hkh, setCellIndex_eq hkw hkh, hmask, emod_add_pow_band]
  have hk : (0 : Int) < 2 ^ kw := pow_pos (by norm_num) kw
  by_cases hb : (2 : Int) ^ kw ≤ x % (2 ^ (kw + 1))
  · rw [if_pos hb, if_pos hb, if_neg (by omega)]
    have : (2 : Int) ^ kh / 2 - 1 - ((2 : Int) ^ kh / 2 - 1 - y) = y := by ring
    rw [this]
  · rw [if_neg hb, if_neg hb, if_pos (by omega)]

/-- GPU double-crossing law, valid only from the twist region onward:
`cellIndex` treats every `x ≥ width` as a single crossing, so adding
`2·width` is invisible exactly when `x` is already past the seam. -/
theorem cellIndex_add_two_width_of_ge {w h x y : Nat} (hx : w ≤ x)
    (hU : x + 2 * w < U) :
    cellIndex w h (uadd x (2 * w)) y = cellIndex w h x y := by
  rw [uadd_eq_of_lt hU]
  unfold cellIndex
  rw [if_pos (by omega : w ≤ x + 2 * w), if_pos hx,
    show (x + 2 * w) % w = x % w by
      rw [show x + 2 * w = x + w * 2 by ring, Nat.add_mul_mod_self_left]]

/-- The u32 twist subtraction only depends on `y` through `y % h`. -/
theorem usub_emod_twist {h t y : Nat} (hdvd : h ∣ U) (hy : y < U) :
    usub t (y % h) % h = usub t y % h := by
  unfold usub
  rw [Nat.mod_mod_of_dvd _ hdvd, Nat.mod_mod_of_dvd _ hdvd]
  have h1 : y % h ≤ U := le_trans (Nat.mod_le y h) (le_of_lt hy)
  have h2 : y ≤ U := le_of_lt hy
  have hcast : ∀ b : Nat, b ≤ U →
      ((t + (U - b)) % h : Nat) =
        (((t : Int) + ((U : Nat) : Int) - (b : Nat)) % (h : Int)).toNat := by
    intro b hb
    have hb' : ((t + (U - b) : Nat) : Int) = (t : Int) + ((U : Nat) : Int) - b := by
      push_cast [hb]
      ring
    rw [← Int.toNat_natCast ((t + (U - b)) % h), Int.ofNat_emod, hb']
  rw [hcast _ h1, hcast _ h2]
  congr 1
  have hyr : ((y % h : Nat) : Int) = (y : Int) % (h : Int) := Int.ofNat_emod y h
  rw [Int.sub_emod ((t : Int) + ((U : Nat) : Int)) ((y % h : Nat) : Int),
    Int.sub_emod ((t : Int) + ((U : Nat) : Int)) (y : Int), hyr, Int.emod_emod]

/-- GPU single-crossing law on the pre-seam band `x < width`: adding one
width lands in the twist branch, which reflects `y` exactly as feeding
the (u32-computed) reflected `y` to an untwisted lookup. -/
theorem cellIndex_add_width_of_lt {w h x y : Nat} (hdvd : h ∣ U)
    (hx : x < w) (hw : w ≤ 2 ^ 31) (hy : y < U) :
    cellIndex w h (uadd x w) y =
      cellIndex w h x (usub (usub (h / 2) 1) y) := by
  have hU : x + w < U := by
    have : (2 : Nat) ^ 31 < 2 ^ 32 := by norm_num
    unfold U
    omega
  rw [uadd_eq_of_lt hU]
  unfold cellIndex
  rw [if_pos (by omega : w ≤ x + w), if_neg (by omega : ¬ w ≤ x),
    show (x + w) % w = x % w by
      rw [show x + w = x + w * 1 by ring, Nat.add_mul_mod_self_left]]
  rw [usub_emod_twist hdvd hy]

/-- The GPU index always lands inside the flat buffer. -/
theorem cellIndex_lt {w h : Nat} (hw : 0 < w) (hh : 0 < h) (hwh : w * h ≤ U)
    (x y : Nat) : cellIndex w h x y < w * h := by
  rw [cellIndex_eq hw hh hwh]
  have hx : x % w < w := Nat.mod_lt _ hw
  set B := if w ≤ x then usub (usub (h / 2) 1) (y % h) % h else y % h with hB
  have hBlt : B < h := by
    rw [hB]; split <;> exact Nat.mod_lt _ hh
  have h2 : B * w + w ≤ h * w := by
    calc B * w + w = (B + 1) * w := by ring
      _ ≤ h * w := Nat.mul_le_mul_right w (by omega)
  calc B * w + x % w < B * w + w := by omega
    _ ≤ h * w := h2
    _ = w * h := Nat.mul_comm _ _

/-- The CPU index always lands inside the flat buffer. -/
theorem setCellIndex_nonneg_lt {kw kh : Nat} (hkw : kw ≤ 30) (hkh : kh ≤ 31)
    (x y : Int) :
    0 ≤ setCellIndex (2 ^ kw) (2 ^ kh) x y ∧
      setCellIndex (2 ^ kw) (2 ^ kh) x y < 2 ^ kw * 2 ^ kh := by
  rw [setCellIndex_eq hkw hkh]
  have hwpos : (0 : Int) < 2 ^ kw := pow_pos (by norm_num) kw
  have hhpos : (0 : Int) < 2 ^ kh := pow_pos (by norm_num) kh
  set B : Int := if 2 ^ kw ≤ x % (2 ^ (kw + 1))
    then ((2 : Int) ^ kh / 2 - 1 - y) % (2 ^ kh) else y % (2 ^ kh) with hB
  have hB0 : 0 ≤ B := by
    rw [hB]; split <;> exact Int.emod_nonneg _ (by omega)
  have hB1 : B < 2 ^ kh := by
    rw [hB]; split <;> exact Int.emod_lt_of_pos _ hhpos
  have hx0 : 0 ≤ x % (2 ^ kw) := Int.emod_nonneg _ (by omega)
  have hx1 : x % (2 ^ kw) < 2 ^ kw := Int.emod_lt_of_pos _ hwpos
  constructor
  · have : (0 : Int) ≤ B * 2 ^ kw := mul_nonneg hB0 (le_of_lt hwpos)
    omega
  · have hm : B * 2 ^ kw ≤ (2 ^ kh - 1) * 2 ^ kw :=
      mul_le_mul_of_nonneg_right (by omega) (le_of_lt hwpos)
    have hexp : ((2 : Int) ^ kh - 1) * 2 ^ kw = 2 ^ kw * 2 ^ kh - 2 ^ kw := by
      rw [sub_mul, one_mul, mul_comm]
    rw [hexp] at hm
    omega

/-! ### The compute pass (`computeMain` in `src/life.wgsl`)

A cell-state buffer is modelled as `Nat → Nat` (index to stored `u32`).
Each shader invocation receives a `cell` coordinate, reads only the
frozen input buffer `cellStateIn`, and writes one element of
`cellStateOut`.  Because the dimensions are powers of two,
`Math.ceil(grid / workgroup)` whole workgroups cover exactly the
`[0, w) × [0, h)` domain. -/

/-- `fn cellActive(x, y) = cellStateIn[cellIndex(vec2(x, y))]`. -/
def cellActive (w h : Nat) (cur : Nat → Nat) (x y : Nat) : Nat :=
  cur (cellIndex w h x y)

/-- The `activeNeighbors` sum of `computeMain`, reads in source order,
u32 wraparound on the coordinate offsets and the running sum. -/
def activeNeighbors (w h : Nat) (cur : Nat → Nat) (x y : Nat) : Nat :=
  uadd (uadd (uadd (uadd (uadd (uadd (uadd
    (cellActive w h cur (uadd x 1) (uadd y 1))
    (cellActive w h cur (uadd x 1) y))
    (cellActive w h cur (uadd x 1) (usub y 1)))
    (cellActive w h cur x (usub y 1)))
    (cellActive w h cur (usub x 1) (usub y 1)))
    (cellActive w h cur (usub x 1) y))
    (cellActive w h cur (usub x 1) (uadd y 1)))
    (cellActive w h cur x (uadd y 1))

/-- The value the `switch activeNeighbors` of one `computeMain`
invocation stores into `cellStateOut[cellIndex(cell.xy)]`. -/
def computeCell (w h : Nat) (cur : Nat → Nat) (x y : Nat) : Nat :=
  let n := activeNeighbors w h cur x y
  if n = 2 then cur (cellIndex w h x y)
  else if n = 3 then 1
  else 0

/-- Running the `computeMain` invocations in list order: invocation
`(x, y)` stores `computeCell` at `cellIndex (x, y)` of the output
buffer; every read is from the frozen input buffer `cur`. -/
def execCells (w h : Nat) (cur : Nat → Nat) :
    List (Nat × Nat) → (Nat → Nat) → (Nat → Nat)
  | [], out => out
  | c :: rest, out =>
      execCells w h cur rest fun i =>
        if i = cellIndex w h c.1 c.2 then computeCell w h cur c.1 c.2 else out i

/-- The dispatch domain `[0, w) × [0, h)`, row-major. -/
def domainCells (w h : Nat) : List (Nat × Nat) :=
  (List.range (w * h)).map fun i => (i % w, i / w)

/-- One full update dispatch over the previous output contents `out0`. -/
def stepBuffer (w h : Nat) (cur out0 : Nat → Nat) : Nat → Nat :=
  execCells w h cur (domainCells w h) out0

/-! ### CPU seeding (`src/life.ts`) -/

/-- `setCell(x, y, state)`: one write into `cellStateArray`, modelled as
`Int → Nat` (the resolved index is provably in `[0, w·h)`). -/
def setCellWrite (w h x y : Int) (state : Nat) (buf : Int → Nat) : Int → Nat :=
  fun i => if i = setCellIndex w h x y then state else buf i

/-- `drawXStripe(y)`:

    for (let x = 0; x < 2 * this.grid_size_x; x++) { this.setCell(x, y); }

"Draws a stripe that goes all the way around twice, because it doesn't
join up with itself the first time around." -/
def drawXStripe (w h y : Int) (buf : Int → Nat) : Int → Nat :=
  (List.range (2 * w).toNat).foldl (fun b (x : Nat) => setCellWrite w h (x : Int) y 1 b) buf

/-- The error the specification prescribes for out-of-range seeding
parameters.  The source performs no such validation, so the faithful
model below never produces it; wrapping the result in `Except` is what
makes "never fails" statable. -/
inductive SeedError where
  | invalidParameter
deriving DecidableEq

/-- `setRandom(fraction)`:

    this.clear();
    for (let index = 0; index < this.cellStateArray.length; index++) {
      this.cellStateArray[index] = Math.random() < fraction ? 1 : 0;
    }
    this.upload();

The `Math.random()` stream is abstracted as `rand : Nat → ℚ` (call
`index` receives `rand index`, each value in `[0, 1)`); `fraction` is
used in the comparison exactly as passed — no validation, no clamping,
no throw. -/
def setRandomArray (w h : Nat) (fraction : ℚ) (rand : Nat → ℚ) : Nat → Nat :=
  fun i => if i < w * h then (if rand i < fraction then 1 else 0) else 0

def setRandom (w h : Nat) (fraction : ℚ) (rand : Nat → ℚ) :
    Except SeedError (Nat → Nat) :=
  .ok (setRandomArray w h fraction rand)

/-! ### Double buffering and the step counter (`ToroidalLife`) -/

/-- The mutable state of `ToroidalLife` that the buffer-parity claims
are about: `step`, which storage buffer `currentCellState` points at
(`0` = "Cell State A", `1` = "Cell State B"), and the two buffers'
contents. -/
structure LifeState where
  step : Nat
  current : Nat
  buffers : Nat → Nat → Nat

/-- `update()`: the compute pass binds `bindGroups[this.step % 2]`,
which reads `cellStateStorage[step % 2]` and writes the other buffer;
then `this.step++` and
`this.currentCellState = this.cellStateStorage[this.step % 2]`. -/
def update (w h : Nat) (s : LifeState) : LifeState :=
  let read := s.step % 2
  let write := (s.step + 1) % 2
  { step := s.step + 1
    current := (s.step + 1) % 2
    buffers := fun b =>
      if b = write then stepBuffer w h (s.buffers read) (s.buffers write)
      else s.buffers b }

/-- Common shape of every seeding method (`setRandom`,
`setRandomGliders`, `setOneGlider`, `setXStripes`, `setYStripes`,
`setRandomXStripes`, `setRandomYStripes`, `setSquares`, `setEmpty`,
`setFull`): mutate `cellStateArray` to some pattern and `upload()` it
into the buffer `currentCellState` points at; `step` and
`currentCellState` are untouched. -/
def seedWith (pat : Nat → Nat) (s : LifeState) : LifeState :=
  { s with buffers := fun b => if b = s.current then pat else s.buffers b }

/-- The constructor: `this.step = 0`,
`this.currentCellState = this.cellStateStorage[0]`, two fresh
(zero-initialised) storage buffers, then `this.setRandom(.3)` seeds the
current buffer with some pattern `pat`. -/
def initState (pat : Nat → Nat) : LifeState :=
  seedWith pat { step := 0, current := 0, buffers := fun _ _ => 0 }

/-- States reachable through the public mutators. -/
inductive Reachable (w h : Nat) : LifeState → Prop
  | init (pat : Nat → Nat) : Reachable w h (initState pat)
  | seed {s : LifeState} (pat : Nat → Nat) :
      Reachable w h s → Reachable w h (seedWith pat s)
  | upd {s : LifeState} : Reachable w h s → Reachable w h (update w h s)

/-! ### Order-independence of the dispatch -/

theorem U_val : U = 4294967296 := by norm_num [U]

/-- Invocations whose target index differs from `j` leave `out j`
unchanged. -/
theorem execCells_notin {w h : Nat} {cur : Nat → Nat} {l : List (Nat × Nat)}
    {out : Nat → Nat} {j : Nat}
    (hj : ∀ c ∈ l, cellIndex w h c.1 c.2 ≠ j) :
    execCells w h cur l out j = out j := by
  induction l generalizing out with
  | nil => rfl
  | cons a t ih =>
    rw [execCells, ih fun c hc => hj c (List.mem_cons_of_mem a hc)]
    exact if_neg fun he => hj a (List.mem_cons_self a t) he.symm

/-- Any schedule that contains cell `(x, y)` once, among distinct
in-domain cells, stores `computeCell x y` at the row-major index. -/
theorem execCells_hit {w h : Nat} (hw : 0 < w) (hh : 0 < h) (hwh : w * h ≤ U)
    {cur : Nat → Nat} {l : List (Nat × Nat)}
    (hdom : ∀ c ∈ l, c.1 < w ∧ c.2 < h) (hnd : l.Nodup)
    {x y : Nat} (hx : x < w) (hy : y < h) (hmem : (x, y) ∈ l) :
    ∀ out : Nat → Nat,
      execCells w h cur l out (y * w + x) = computeCell w h cur x y := by
  induction l with
  | nil => cases hmem
  | cons a t ih =>
    intro out
    rw [execCells]
    by_cases hat : (x, y) ∈ t
    · exact ih (fun c hc => hdom c (List.mem_cons_of_mem a hc))
        (List.Nodup.of_cons hnd) hat _
    · have hax : a = (x, y) := by
        rcases List.mem_cons.mp hmem with he | he
        · exact he.symm
        · exact absurd he hat
      subst hax
      have hnt : (x, y) ∉ t := (List.nodup_cons.mp hnd).1
      rw [execCells_notin ?_]
      · simp only
        rw [if_pos (cellIndex_in_domain hw hh hwh hx hy).symm]
      · intro c hc he
        rcases c with ⟨cx, cy⟩
        have hcd := hdom (cx, cy) (List.mem_cons_of_mem _ hc)
        rw [cellIndex_in_domain hw hh hwh hcd.1 hcd.2] at he
        obtain ⟨hex, hey⟩ := encode_inj hcd.1 hx he
        exact hnt (by rw [← hex, ← hey]; exact hc)

theorem mem_domainCells {w h : Nat} (hw : 0 < w) {x y : Nat} :
    (x, y) ∈ domainCells w h ↔ x < w ∧ y < h := by
  unfold domainCells
  simp only [List.mem_map, List.mem_range, Prod.mk.injEq]
  constructor
  · rintro ⟨i, hi, hex, hey⟩
    subst hex
    subst hey
    exact ⟨Nat.mod_lt _ hw, Nat.div_lt_of_lt_mul hi⟩
  · rintro ⟨hx, hy⟩
    refine ⟨y * w + x, ?_, ?_, ?_⟩
    · calc y * w + x < y * w + w := by omega
        _ = (y + 1) * w := by ring
        _ ≤ h * w := Nat.mul_le_mul_right w (by omega)
        _ = w * h := Nat.mul_comm _ _
    · rw [Nat.add_comm, Nat.add_mul_mod_self_right, Nat.mod_eq_of_lt hx]
    · rw [Nat.add_comm, Nat.add_mul_div_right _ _ hw, Nat.div_eq_of_lt hx,
        Nat.zero_add]

theorem nodup_domainCells (w h : Nat) : (domainCells w h).Nodup := by
  unfold domainCells
  refine List.Nodup.map_on ?_ (List.nodup_range _)
  intro i hi j hj he
  simp only [Prod.mk.injEq] at he
  obtain ⟨h1, h2⟩ := he
  calc i = w * (i / w) + i % w := (Nat.div_add_mod i w).symm
    _ = w * (j / w) + j % w := by rw [h1, h2]
    _ = j := Nat.div_add_mod j w

/-- Any schedule that is a permutation of the dispatch domain computes
the same next buffer, independent of its previous contents. -/
theorem execCells_perm_domain {w h : Nat} (hw : 0 < w) (hh : 0 < h)
    (hwh : w * h ≤ U) {cur out : Nat → Nat} {l : List (Nat × Nat)}
    (hp : l.Perm (domainCells w h)) {x y : Nat} (hx : x < w) (hy : y < h) :
    execCells w h cur l out (y * w + x) = computeCell w h cur x y := by
  refine execCells_hit hw hh hwh ?_ ?_ hx hy ?_ out
  · intro c hc
    rcases c with ⟨cx, cy⟩
    exact (mem_domainCells hw).mp (hp.mem_iff.mp hc)
  · exact hp.nodup_iff.mpr (nodup_domainCells w h)
  · exact hp.mem_iff.mpr ((mem_domainCells hw).mpr ⟨hx, hy⟩)

/-- The canonical dispatch stores the rule output at every cell. -/
theorem stepBuffer_apply {w h : Nat} (hw : 0 < w) (hh : 0 < h)
    (hwh : w * h ≤ U) (cur out0 : Nat → Nat) {x y : Nat} (hx : x < w)
    (hy : y < h) :
    stepBuffer w h cur out0 (y * w + x) = computeCell w h cur x y :=
  execCells_perm_domain hw hh hwh (List.Perm.refl _) hx hy

/-- For a Boolean current buffer the u32 neighbor sum cannot wrap: it
is the plain 8-neighbor live count. -/
theorem activeNeighbors_eq {w h : Nat} {cur : Nat → Nat}
    (hcur : ∀ i, cur i ≤ 1) (x y : Nat) :
    activeNeighbors w h cur x y =
      cellActive w h cur (uadd x 1) (uadd y 1) +
      cellActive w h cur (uadd x 1) y +
      cellActive w h cur (uadd x 1) (usub y 1) +
      cellActive w h cur x (usub y 1) +
      cellActive w h cur (usub x 1) (usub y 1) +
      cellActive w h cur (usub x 1) y +
      cellActive w h cur (usub x 1) (uadd y 1) +
      cellActive w h cur x (uadd y 1) := by
  have hc : ∀ a b : Nat, cellActive w h cur a b ≤ 1 := fun a b => hcur _
  unfold activeNeighbors
  set n1 := cellActive w h cur (uadd x 1) (uadd y 1) with hn1
  set n2 := cellActive w h cur (uadd x 1) y with hn2
  set n3 := cellActive w h cur (uadd x 1) (usub y 1) with hn3
  set n4 := cellActive w h cur x (usub y 1) with hn4
  set n5 := cellActive w h cur (usub x 1) (usub y 1) with hn5
  set n6 := cellActive w h cur (usub x 1) y with hn6
  set n7 := cellActive w h cur (usub x 1) (uadd y 1) with hn7
  set n8 := cellActive w h cur x (uadd y 1) with hn8
  have h1 : n1 ≤ 1 := hn1 ▸ hc _ _
  have h2 : n2 ≤ 1 := hn2 ▸ hc _ _
  have h3 : n3 ≤ 1 := hn3 ▸ hc _ _
  have h4 : n4 ≤ 1 := hn4 ▸ hc _ _
  have h5 : n5 ≤ 1 := hn5 ▸ hc _ _
  have h6 : n6 ≤ 1 := hn6 ▸ hc _ _
  have h7 : n7 ≤ 1 := hn7 ▸ hc _ _
  have h8 : n8 ≤ 1 := hn8 ▸ hc _ _
  have s1 : uadd n1 n2 = n1 + n2 := uadd_eq_of_lt (by rw [U_val]; omega)
  rw [s1]
  have s2 : uadd (n1 + n2) n3 = n1 + n2 + n3 := uadd_eq_of_lt (by rw [U_val]; omega)
  rw [s2]
  have s3 : uadd (n1 + n2 + n3) n4 = n1 + n2 + n3 + n4 :=
    uadd_eq_of_lt (by rw [U_val]; omega)
  rw [s3]
  have s4 : uadd (n1 + n2 + n3 + n4) n5 = n1 + n2 + n3 + n4 + n5 :=
    uadd_eq_of_lt (by rw [U_val]; omega)
  rw [s4]
  have s5 : uadd (n1 + n2 + n3 + n4 + n5) n6 = n1 + n2 + n3 + n4 + n5 + n6 :=
    uadd_eq_of_lt (by rw [U_val]; omega)
  rw [s5]
  have s6 : uadd (n1 + n2 + n3 + n4 + n5 + n6) n7 =
      n1 + n2 + n3 + n4 + n5 + n6 + n7 :=
    uadd_eq_of_lt (by rw [U_val]; omega)
  rw [s6]
  have s7 : uadd (n1 + n2 + n3 + n4 + n5 + n6 + n7) n8 =
      n1 + n2 + n3 + n4 + n5 + n6 + n7 + n8 :=
    uadd_eq_of_lt (by rw [U_val]; omega)
  rw [s7]

/-! ### Characterisation of the constructor check -/

theorem toInt32_eq_zero_iff {r : Nat} (hr : r < 2 ^ 32) :
    toInt32 r = 0 ↔ r = 0 := by
  unfold toInt32
  split
  · constructor
    · intro h
      exact_mod_cast h
    · intro h
      simp [h]
  · constructor
    · intro h
      have : (r : Int) = 2 ^ 32 := by omega
      have : r = 2 ^ 32 := by exact_mod_cast this
      omega
    · intro h
      omega

/-- `isPowerOf2` agrees with the mathematical predicate on the whole
range the 32-bit wrap leaves intact. -/
theorem isPowerOf2_iff {n : Int} (hn : n < 2 ^ 32) :
    isPowerOf2 n = true ↔ ∃ k : Nat, n = 2 ^ k := by
  unfold isPowerOf2
  rw [Bool.and_eq_true, decide_eq_true_eq, decide_eq_true_eq]
  constructor
  · rintro ⟨h0, hand⟩
    have hm0 : 0 < n.toNat := by omega
    have hnn : ((n.toNat : Nat) : Int) = n := Int.toNat_of_nonneg (by omega)
    have he1 : n % (2 ^ 32) = n := Int.emod_eq_of_lt (by omega) hn
    have he2 : (n - 1) % (2 ^ 32) = n - 1 := Int.emod_eq_of_lt (by omega) (by omega)
    have hp : (n - 1).toNat = n.toNat - 1 := by omega
    unfold jsAnd at hand
    rw [he1, he2, hp] at hand
    have hlt : n.toNat &&& (n.toNat - 1) < 2 ^ 32 := by
      have h1 : n.toNat &&& (n.toNat - 1) ≤ n.toNat - 1 := Nat.and_le_right
      omega
    obtain ⟨k, hk⟩ :=
      pow_two_of_and_pred_eq_zero n.toNat hm0 ((toInt32_eq_zero_iff hlt).mp hand)
    exact ⟨k, by rw [← hnn, hk]; push_cast; ring⟩
  · rintro ⟨k, rfl⟩
    have h0 : (0 : Int) < 2 ^ k := pow_pos (by norm_num) k
    refine ⟨h0, ?_⟩
    have hk32 : k < 32 := by
      by_contra hc
      have : (2 : Int) ^ 32 ≤ 2 ^ k := pow_le_pow_right₀ (by norm_num) (by omega)
      omega
    have he1 : (2 : Int) ^ k % (2 ^ 32) = 2 ^ k :=
      Int.emod_eq_of_lt (by omega) hn
    have he2 : ((2 : Int) ^ k - 1) % (2 ^ 32) = 2 ^ k - 1 :=
      Int.emod_eq_of_lt (by omega) (by omega)
    have ht1 : ((2 : Int) ^ k).toNat = 2 ^ k := by
      have : (((2 : Nat) ^ k : Nat) : Int) = (2 : Int) ^ k := by push_cast; ring
      rw [← this, Int.toNat_natCast]
    have ht2 : ((2 : Int) ^ k - 1).toNat = 2 ^ k - 1 := by
      have h2 : (1 : Nat) ≤ 2 ^ k := Nat.one_le_two_pow
      have : (((2 : Nat) ^ k - 1 : Nat) : Int) = (2 : Int) ^ k - 1 := by
        push_cast [h2]
        ring
      rw [← this, Int.toNat_natCast]
    unfold jsAnd
    rw [he1, he2, ht1, ht2, and_pred_eq_zero_of_pow_two]
    rfl

/-! ### The parity invariant -/

/-- `currentCellState` always points at `cellStateStorage[step % 2]`. -/
theorem reachable_current_parity {w h : Nat} {s : LifeState}
    (hs : Reachable w h s) : s.current = s.step % 2 := by
  induction hs with
  | init pat => rfl
  | seed pat _ ih => exact ih
  | upd _ _ => rfl

/-! ### Stripe coverage -/

theorem stripe_fold_preserve {w h y : Int} (l : List Nat) {buf : Int → Nat}
    {j : Int} (hb : buf j = 1) :
    l.foldl (fun b (x : Nat) => setCellWrite w h (x : Int) y 1 b) buf j = 1 := by
  induction l generalizing buf with
  | nil => exact hb
  | cons a t ih =>
    rw [List.foldl_cons]
    apply ih
    unfold setCellWrite
    split
    · rfl
    · exact hb

theorem stripe_fold_hit {w h y : Int} {l : List Nat} {n : Nat} (hn : n ∈ l) :
    ∀ buf : Int → Nat,
      l.foldl (fun b (x : Nat) => setCellWrite w h (x : Int) y 1 b) buf
        (setCellIndex w h (n : Int) y) = 1 := by
  induction l with
  | nil => cases hn
  | cons a t ih =>
    intro buf
    rw [List.foldl_cons]
    by_cases hat : n ∈ t
    · exact ih hat _
    · have han : a = n := by
        rcases List.mem_cons.mp hn with he | he
        · exact he.symm
        · exact absurd he hat
      subst han
      apply stripe_fold_preserve
      unfold setCellWrite
      rw [if_pos rfl]

/-! ### Schedule-parametrised multi-step runs -/

/-- `update()` with an explicit invocation schedule for the compute
pass (the real dispatch is `domainCells` in some GPU-chosen order). -/
def updateWith (w h : Nat) (l : List (Nat × Nat)) (s : LifeState) : LifeState :=
  let read := s.step % 2
  let write := (s.step + 1) % 2
  { step := s.step + 1
    current := (s.step + 1) % 2
    buffers := fun b =>
      if b = write then execCells w h (s.buffers read) l (s.buffers write)
      else s.buffers b }

/-- `N` updates, one schedule per generation. -/
def runWith (w h : Nat) : List (List (Nat × Nat)) → LifeState → LifeState
  | [], s => s
  | l :: rest, s => runWith w h rest (updateWith w h l s)

/-- The rule output only reads the current buffer inside `[0, w·h)`. -/
theorem computeCell_congr {w h : Nat} (hw : 0 < w) (hh : 0 < h) (hwh : w * h ≤ U)
    {cur1 cur2 : Nat → Nat} (hc : ∀ i, i < w * h → cur1 i = cur2 i) (x y : Nat) :
    computeCell w h cur1 x y = computeCell w h cur2 x y := by
  have hread : ∀ a b : Nat, cur1 (cellIndex w h a b) = cur2 (cellIndex w h a b) :=
    fun a b => hc _ (cellIndex_lt hw hh hwh a b)
  unfold computeCell activeNeighbors cellActive
  rw [hread, hread, hread, hread, hread, hread, hread, hread, hread]

/-- Two runs of equal length over permutation schedules, starting from
states with the same step parity and the same current-buffer contents,
end with identical current-buffer contents. -/
theorem runWith_deterministic {w h : Nat} (hw : 0 < w) (hh : 0 < h)
    (hwh : w * h ≤ U) :
    ∀ (L1 L2 : List (List (Nat × Nat))) (s1 s2 : LifeState),
      L1.length = L2.length →
      (∀ l ∈ L1, l.Perm (domainCells w h)) →
      (∀ l ∈ L2, l.Perm (domainCells w h)) →
      s1.step = s2.step →
      (∀ i, i < w * h → s1.buffers (s1.step % 2) i = s2.buffers (s2.step % 2) i) →
      (runWith w h L1 s1).step = (runWith w h L2 s2).step ∧
      ∀ i, i < w * h →
        (runWith w h L1 s1).buffers ((runWith w h L1 s1).step % 2) i =
          (runWith w h L2 s2).buffers ((runWith w h L2 s2).step % 2) i := by
  intro L1
  induction L1 with
  | nil =>
    intro L2 s1 s2 hlen _ _ hstep hbuf
    have : L2 = [] := List.length_eq_zero.mp hlen.symm
    subst this
    exact ⟨hstep, hbuf⟩
  | cons l1 T1 ih =>
    intro L2 s1 s2 hlen hL1 hL2 hstep hbuf
    rcases L2 with _ | ⟨l2, T2⟩
    · simp at hlen
    · have hT : T1.length = T2.length := by
        simpa using hlen
      refine ih T2 (updateWith w h l1 s1) (updateWith w h l2 s2) hT
        (fun l hl => hL1 l (List.mem_cons_of_mem _ hl))
        (fun l hl => hL2 l (List.mem_cons_of_mem _ hl)) ?_ ?_
      · simp [updateWith, hstep]
      · intro i hi
        have hx : i % w < w := Nat.mod_lt _ hw
        have hy : i / w < h := Nat.div_lt_of_lt_mul hi
        have hdec : (i / w) * w + i % w = i := by
          calc (i / w) * w + i % w = w * (i / w) + i % w := by ring
            _ = i := Nat.div_add_mod i w
        have hmm : ∀ n : Nat, (n + 1) % 2 % 2 = (n + 1) % 2 :=
          fun n => Nat.mod_mod_of_dvd _ dvd_rfl
        simp only [updateWith, hstep]
        simp only [hmm s2.step, if_true, eq_self_iff_true]
        rw [← hdec,
          execCells_perm_domain hw hh hwh (hL1 l1 (List.mem_cons_self _ _)) hx hy,
          execCells_perm_domain hw hh hwh (hL2 l2 (List.mem_cons_self _ _)) hx hy]
        refine computeCell_congr hw hh hwh ?_ (i % w) (i / w)
        intro j hj
        have hb := hbuf j hj
        rw [hstep] at hb
        exact hb

/-! ### Agreement of the two resolutions on the seeding domain -/

/-- The u32 twist expression `height/2 - 1 - y` agrees, modulo `h`, with
the CPU's exact integer reflection. -/
theorem usub_twist_cast {kh : Nat} (hkh : kh ≤ 31) {y : Nat} (hy : y ≤ U) :
    ((usub (usub (2 ^ kh / 2) 1) y : Nat) : Int) % (2 : Int) ^ kh =
      ((2 : Int) ^ kh / 2 - 1 - (y : Int)) % (2 : Int) ^ kh := by
  cases kh with
  | zero => simp [pow_zero, Int.emod_one]
  | succ m =>
    have hm : m ≤ 30 := by omega
    have hdiv : (2 : Nat) ^ (m + 1) / 2 = 2 ^ m := by
      rw [pow_succ]
      exact Nat.mul_div_cancel _ (by norm_num)
    have h2m : (1 : Nat) ≤ 2 ^ m := Nat.one_le_two_pow
    have h2mU : (2 : Nat) ^ m < U := by
      unfold U
      exact Nat.pow_lt_pow_right (by norm_num) (by omega)
    rw [hdiv, usub_eq_of_le h2m h2mU]
    unfold usub
    rw [Int.ofNat_emod]
    have hU32 : ((U : Nat) : Int) = (2 : Int) ^ 32 := by
      unfold U
      push_cast
    have hdvd : ((2 : Int) ^ (m + 1)) ∣ ((2 : Int) ^ 32) := pow_dvd_pow 2 (by omega)
    rw [hU32, Int.emod_emod_of_dvd _ hdvd]
    have hcast : ((2 ^ m - 1 + (U - y) : Nat) : Int) =
        (2 : Int) ^ m - 1 - (y : Int) + ((U : Nat) : Int) := by
      push_cast [h2m, hy]
      ring
    have hexp : ((U : Nat) : Int) = 2 ^ (m + 1) * 2 ^ (31 - m) := by
      rw [hU32, ← pow_add]
      congr 1
      omega
    rw [hcast, hexp, Int.add_mul_emod_self_left]
    have hediv : (2 : Int) ^ (m + 1) / 2 = 2 ^ m := by
      rw [two_pow_succ_int]
      exact Int.mul_ediv_cancel _ (by norm_num)
    rw [hediv]

/-- CPU `setCell` placement and GPU `cellIndex` compute the same flat
index for every coordinate the seeders use (`0 ≤ x < 2·width`,
`0 ≤ y < height`). -/
theorem setCellIndex_eq_cellIndex {kw kh : Nat} (hkw : kw ≤ 30) (hkh : kh ≤ 31)
    (hkwh : kw + kh ≤ 32) {x y : Nat} (hx : x < 2 * 2 ^ kw) (hy : y < 2 ^ kh) :
    setCellIndex (2 ^ kw) (2 ^ kh) (x : Int) (y : Int) =
      ((cellIndex (2 ^ kw) (2 ^ kh) x y : Nat) : Int) := by
  have hwN : 0 < 2 ^ kw := Nat.two_pow_pos kw
  have hhN : 0 < 2 ^ kh := Nat.two_pow_pos kh
  have hwh : 2 ^ kw * 2 ^ kh ≤ U := by
    unfold U
    rw [← pow_add]
    exact Nat.pow_le_pow_right (by norm_num) hkwh
  have hxI : (x : Int) % 2 ^ (kw + 1) = (x : Int) := by
    apply Int.emod_eq_of_lt (by positivity)
    have h1 : ((x : Nat) : Int) < ((2 * 2 ^ kw : Nat) : Int) := by exact_mod_cast hx
    calc (x : Int) < ((2 * 2 ^ kw : Nat) : Int) := h1
      _ = 2 ^ (kw + 1) := by push_cast [two_pow_succ_int]; ring
  rw [setCellIndex_eq hkw hkh, cellIndex_eq hwN hhN hwh, hxI, Nat.mod_eq_of_lt hy]
  by_cases hc : 2 ^ kw ≤ x
  · have hcI : (2 : Int) ^ kw ≤ (x : Int) := by exact_mod_cast hc
    have hyU : y ≤ U := by
      have h1 : (2 : Nat) ^ kh ≤ U := by
        unfold U
        exact Nat.pow_le_pow_right (by norm_num) (by omega)
      omega
    rw [if_pos hcI, if_pos hc]
    push_cast
    have hy2 := usub_twist_cast hkh hyU
    rw [← hy2]
  · have hcI : ¬ (2 : Int) ^ kw ≤ (x : Int) := by exact_mod_cast hc
    rw [if_neg hcI, if_neg hc]
    have hyI : (y : Int) % (2 : Int) ^ kh = (y : Int) :=
      Int.emod_eq_of_lt (by positivity) (by exact_mod_cast hy)
    rw [hyI]
    push_cast
    ring

/-! ## The claims -/

/-- C1 counterexample: on a 4×4 grid the GPU `cellIndex` maps
`(0 + 2·width, 0)` to index 4, but `(0, 0)` to index 0 — double-crossing
is not the identity for the shader resolution, whose band test is
`x ≥ width` rather than the parity of `⌊x / width⌋`. -/
theorem cellIndex_double_cross_fails :
    cellIndex 4 4 (0 + 2 * 4) 0 ≠ cellIndex 4 4 0 0 := by decide

/-- C1 (corrected): as stated — `resolve(x + 2·width, y) = resolve(x, y)`
for all coordinates — the claim fails on the GPU `cellIndex`
(`cellIndex_double_cross_fails`).  Amended: the double-crossing identity
holds for the CPU `setCell` resolution at every integer coordinate, and
for the GPU `cellIndex` at every `x` at or past the seam (`width ≤ x`,
without u32 overflow of `x + 2·width`). -/
theorem claim_double_crossing {kw kh : Nat} (hkw : kw ≤ 30) (hkh : kh ≤ 31) :
    (∀ x y : Int, setCellIndex (2 ^ kw) (2 ^ kh) (x + 2 * 2 ^ kw) y =
        setCellIndex (2 ^ kw) (2 ^ kh) x y) ∧
    (∀ x y : Nat, 2 ^ kw ≤ x → x + 2 * 2 ^ kw < U →
        cellIndex (2 ^ kw) (2 ^ kh) (uadd x (2 * 2 ^ kw)) y =
          cellIndex (2 ^ kw) (2 ^ kh) x y) :=
  ⟨fun x y => setCellIndex_add_two_width hkw hkh x y,
   fun _ _ hx hU => cellIndex_add_two_width_of_ge hx hU⟩

/-- C1 witness at a 4×4 grid. -/
theorem claim_double_crossing_witness :
    setCellIndex (2 ^ 2) (2 ^ 2) (5 + 2 * 2 ^ 2) 7 =
        setCellIndex (2 ^ 2) (2 ^ 2) 5 7 ∧
      cellIndex (2 ^ 2) (2 ^ 2) (uadd 6 (2 * 2 ^ 2)) 3 =
        cellIndex (2 ^ 2) (2 ^ 2) 6 3 :=
  ⟨(claim_double_crossing (by decide) (by decide)).1 5 7,
   (claim_double_crossing (by decide) (by decide)).2 6 3 (by decide) (by decide)⟩

/-- C2 (confirmed): for power-of-two dimensions both topology
resolutions always produce an index inside `[0, width·height)` — for
every input coordinate, including all out-of-range neighbour offsets —
so an out-of-range-index branch is unreachable. -/
theorem claim_resolve_in_range {kw kh : Nat} (hkw : kw ≤ 30) (hkh : kh ≤ 31)
    (hkwh : kw + kh ≤ 32) :
    (∀ x y : Nat, cellIndex (2 ^ kw) (2 ^ kh) x y < 2 ^ kw * 2 ^ kh) ∧
    (∀ x y : Int, 0 ≤ setCellIndex (2 ^ kw) (2 ^ kh) x y ∧
        setCellIndex (2 ^ kw) (2 ^ kh) x y < 2 ^ kw * 2 ^ kh) := by
  have hwh : (2 : Nat) ^ kw * 2 ^ kh ≤ U := by
    unfold U
    rw [← pow_add]
    exact Nat.pow_le_pow_right (by norm_num) hkwh
  exact ⟨fun x y => cellIndex_lt (Nat.two_pow_pos kw) (Nat.two_pow_pos kh) hwh x y,
    fun x y => setCellIndex_nonneg_lt hkw hkh x y⟩

/-- C2 witness at a 4×4 grid, with out-of-range inputs. -/
theorem claim_resolve_in_range_witness :
    cellIndex (2 ^ 2) (2 ^ 2) 100 7 < 2 ^ 2 * 2 ^ 2 ∧
      0 ≤ setCellIndex (2 ^ 2) (2 ^ 2) (-5) (-3) ∧
      setCellIndex (2 ^ 2) (2 ^ 2) (-5) (-3) < 2 ^ 2 * 2 ^ 2 :=
  ⟨(claim_resolve_in_range (by decide) (by decide) (by decide)).1 100 7,
   (claim_resolve_in_range (by decide) (by decide) (by decide)).2 (-5) (-3)⟩

/-- C3 (confirmed): one update step writes, at each cell's row-major
index of the next buffer, exactly the Life rule output: the current
state when the topology-resolved 8-neighbour live count is exactly 2
(so a dead cell with 2 live neighbours stays dead), alive on exactly 3,
dead on every other count; for 0/1 buffers the u32 neighbour sum is the
plain sum of the eight resolved reads. -/
theorem claim_life_rule {kw kh : Nat} (hkwh : kw + kh ≤ 32)
    {cur : Nat → Nat} (hcur : ∀ i, cur i ≤ 1) (out0 : Nat → Nat)
    {x y : Nat} (hx : x < 2 ^ kw) (hy : y < 2 ^ kh) :
    activeNeighbors (2 ^ kw) (2 ^ kh) cur x y =
        cellActive (2 ^ kw) (2 ^ kh) cur (uadd x 1) (uadd y 1) +
        cellActive (2 ^ kw) (2 ^ kh) cur (uadd x 1) y +
        cellActive (2 ^ kw) (2 ^ kh) cur (uadd x 1) (usub y 1) +
        cellActive (2 ^ kw) (2 ^ kh) cur x (usub y 1) +
        cellActive (2 ^ kw) (2 ^ kh) cur (usub x 1) (usub y 1) +
        cellActive (2 ^ kw) (2 ^ kh) cur (usub x 1) y +
        cellActive (2 ^ kw) (2 ^ kh) cur (usub x 1) (uadd y 1) +
        cellActive (2 ^ kw) (2 ^ kh) cur x (uadd y 1) ∧
    (activeNeighbors (2 ^ kw) (2 ^ kh) cur x y = 2 →
      stepBuffer (2 ^ kw) (2 ^ kh) cur out0 (y * 2 ^ kw + x) =
        cur (y * 2 ^ kw + x)) ∧
    (activeNeighbors (2 ^ kw) (2 ^ kh) cur x y = 3 →
      stepBuffer (2 ^ kw) (2 ^ kh) cur out0 (y * 2 ^ kw + x) = 1) ∧
    (activeNeighbors (2 ^ kw) (2 ^ kh) cur x y ≠ 2 →
      activeNeighbors (2 ^ kw) (2 ^ kh) cur x y ≠ 3 →
      stepBuffer (2 ^ kw) (2 ^ kh) cur out0 (y * 2 ^ kw + x) = 0) := by
  have hw : 0 < 2 ^ kw := Nat.two_pow_pos kw
  have hh : 0 < 2 ^ kh := Nat.two_pow_pos kh
  have hwh : (2 : Nat) ^ kw * 2 ^ kh ≤ U := by
    unfold U
    rw [← pow_add]
    exact Nat.pow_le_pow_right (by norm_num) hkwh
  have hsb := stepBuffer_apply hw hh hwh cur out0 hx hy
  have hci := cellIndex_in_domain hw hh hwh hx hy
  refine ⟨activeNeighbors_eq hcur x y, ?_, ?_, ?_⟩
  · intro hn
    rw [hsb]
    unfold computeCell
    rw [if_pos hn, hci]
  · intro hn
    rw [hsb]
    unfold computeCell
    rw [if_neg (by omega), if_pos hn]
  · intro h2 h3
    rw [hsb]
    unfold computeCell
    rw [if_neg h2, if_neg h3]

/-- C3 witness: on an empty 4×4 grid cell (1,1) has 0 live neighbours
and its next state is dead. -/
theorem claim_life_rule_witness :
    stepBuffer (2 ^ 2) (2 ^ 2) (fun _ => 0) (fun _ => 0) (1 * 2 ^ 2 + 1) = 0 :=
  (claim_life_rule (by decide) (fun _ => Nat.zero_le 1) (fun _ => 0)
      (by decide) (by decide)).2.2.2 (by decide) (by decide)

/-- C4 counterexample: on a 4×4 grid `cellIndex (width + width, 0) = 4`
but `cellIndex (width, h/2 - 1 - 0) = 0` — the single-crossing
reflection law fails on the GPU resolution past the seam. -/
theorem cellIndex_single_cross_fails :
    cellIndex 4 4 (4 + 4) 0 ≠ cellIndex 4 4 4 (4 / 2 - 1 - 0) := by decide

/-- C4 (corrected): as stated — for all coordinates — the
single-crossing reflection law fails on the GPU `cellIndex`
(`cellIndex_single_cross_fails`).  Amended: it holds for the CPU
`setCell` resolution at every integer coordinate, and for the GPU
`cellIndex` on its pre-seam band `x < width`, the reflected `y`
computed in u32 arithmetic. -/
theorem claim_single_crossing {kw kh : Nat} (hkw : kw ≤ 30) (hkh : kh ≤ 31) :
    (∀ x y : Int, setCellIndex (2 ^ kw) (2 ^ kh) (x + 2 ^ kw) y =
        setCellIndex (2 ^ kw) (2 ^ kh) x ((2 : Int) ^ kh / 2 - 1 - y)) ∧
    (∀ x y : Nat, x < 2 ^ kw → y < U →
        cellIndex (2 ^ kw) (2 ^ kh) (uadd x (2 ^ kw)) y =
          cellIndex (2 ^ kw) (2 ^ kh) x (usub (usub (2 ^ kh / 2) 1) y)) := by
  refine ⟨setCellIndex_add_width hkw hkh, ?_⟩
  intro x y hx hy
  have hdvd : (2 : Nat) ^ kh ∣ U := by
    unfold U
    exact pow_dvd_pow 2 (by omega)
  have hwle : (2 : Nat) ^ kw ≤ 2 ^ 31 := Nat.pow_le_pow_right (by norm_num) (by omega)
  exact cellIndex_add_width_of_lt hdvd hx hwle hy

/-- C4 witness at a 4×4 grid. -/
theorem claim_single_crossing_witness :
    setCellIndex (2 ^ 2) (2 ^ 2) (3 + 2 ^ 2) 5 =
        setCellIndex (2 ^ 2) (2 ^ 2) 3 ((2 : Int) ^ 2 / 2 - 1 - 5) ∧
      cellIndex (2 ^ 2) (2 ^ 2) (uadd 1 (2 ^ 2)) 2 =
        cellIndex (2 ^ 2) (2 ^ 2) 1 (usub (usub (2 ^ 2 / 2) 1) 2) :=
  ⟨(claim_single_crossing (by decide) (by decide)).1 3 5,
   (claim_single_crossing (by decide) (by decide)).2 1 2 (by decide) (by decide)⟩

/-- C5 counterexample: the odd height 1 is a power of two, so grid
`(4, 1)` passes the constructor validation even though the claim
requires failure for any odd height. -/
theorem validDims_accepts_odd_height :
    validDims 4 1 = true ∧ (1 : Int) % 2 ≠ 0 := by decide

/-- C5 (corrected): the constructor checks only `isPowerOf2` on both
dimensions — there is no evenness check on the height
(`validDims_accepts_odd_height`).  Amended: for dimensions below
`2^32`, construction fails with the dimension error iff either
dimension is not a positive power of two; the check runs once in the
constructor and `setCell` lookups never re-validate. -/
theorem claim_constructor_validation {w h : Int} (hw : w < 2 ^ 32)
    (hh : h < 2 ^ 32) :
    validDims w h = true ↔ (∃ j : Nat, w = 2 ^ j) ∧ (∃ k : Nat, h = 2 ^ k) := by
  unfold validDims
  rw [Bool.and_eq_true, isPowerOf2_iff hw, isPowerOf2_iff hh]

/-- C5 witness: `(4, 8)` validates. -/
theorem claim_constructor_validation_witness : validDims 4 8 = true :=
  (claim_constructor_validation (by decide) (by decide)).mpr
    ⟨⟨2, by decide⟩, ⟨3, by decide⟩⟩

/-- C6 (confirmed): the step counter starts at 0, each `update`
increments it by exactly one, and in every reachable state
`currentCellState` points at buffer A precisely when `step` is even
(`current = step % 2`) — an invariant established by construction and
preserved by every seeding operation and every update. -/
theorem claim_step_parity (w h : Nat) :
    (∀ pat : Nat → Nat, (initState pat).step = 0) ∧
    (∀ s : LifeState, (update w h s).step = s.step + 1) ∧
    (∀ s : LifeState, Reachable w h s → s.current = s.step % 2) :=
  ⟨fun _ => rfl, fun _ => rfl, fun _ hs => reachable_current_parity hs⟩

/-- C6 witness: construct, reseed, update once. -/
theorem claim_step_parity_witness :
    (update 4 4 (seedWith (fun _ => 1) (initState fun _ => 0))).current =
      (update 4 4 (seedWith (fun _ => 1) (initState fun _ => 0))).step % 2 :=
  (claim_step_parity 4 4).2.2 _
    (Reachable.upd (Reachable.seed _ (Reachable.init _)))

/-- C7 (confirmed): after `drawXStripe y` loops `x` over two full
widths, the cell that any integer `x` resolves to in that stripe is
alive — the stripe closes up with no gap at the `x = 0`/`x = width`
seam. -/
theorem claim_seam_closure {kw kh : Nat} (hkw : kw ≤ 30) (hkh : kh ≤ 31)
    (y : Int) (buf : Int → Nat) (x : Int) :
    drawXStripe (2 ^ kw) (2 ^ kh) y buf
      (setCellIndex (2 ^ kw) (2 ^ kh) x y) = 1 := by
  rw [setCellIndex_emod_period hkw hkh]
  have hn : (0 : Int) < 2 ^ (kw + 1) := pow_pos (by norm_num) _
  have hr0 : 0 ≤ x % (2 : Int) ^ (kw + 1) := Int.emod_nonneg _ (by omega)
  have hr1 : x % (2 : Int) ^ (kw + 1) < 2 ^ (kw + 1) := Int.emod_lt_of_pos _ hn
  have hlink : (2 : Int) * 2 ^ kw = 2 ^ (kw + 1) := by
    rw [two_pow_succ_int]
    ring
  unfold drawXStripe
  set r := x % (2 : Int) ^ (kw + 1) with hr
  have hmem : r.toNat ∈ List.range ((2 * (2 : Int) ^ kw).toNat) := by
    rw [List.mem_range]
    omega
  have hhit := @stripe_fold_hit (2 ^ kw) (2 ^ kh) y
    (List.range ((2 * (2 : Int) ^ kw).toNat)) r.toNat hmem buf
  rw [Int.toNat_of_nonneg hr0] at hhit
  exact hhit

/-- C7 witness: a stripe in row band 1 of a 4×4 grid covers the cell
that `x = -7` resolves to. -/
theorem claim_seam_closure_witness :
    drawXStripe (2 ^ 2) (2 ^ 2) 1 (fun _ => 0)
      (setCellIndex (2 ^ 2) (2 ^ 2) (-7) 1) = 1 :=
  claim_seam_closure (by decide) (by decide) 1 (fun _ => 0) (-7)

/-- C8 counterexample: `setRandom` called with probability 2 — outside
`[0, 1]` — succeeds instead of failing with `InvalidParameter`. -/
theorem setRandom_accepts_out_of_range :
    setRandom 4 4 2 (fun _ => 1 / 2) ≠ Except.error SeedError.invalidParameter :=
  fun he => Except.noConfusion he

/-- C8 (corrected): the spec requires randomized seeders to reject
probabilities outside `[0, 1]`; the code performs no validation at all
(`setRandom_accepts_out_of_range`).  Amended: `setRandom` accepts any
probability, unvalidated and unclamped — it always succeeds, the raw
`p` is used in each per-cell comparison, so `p ≥ 1` fills every cell
and `p ≤ 0` clears every cell. -/
theorem claim_seeder_validation (w h : Nat) (p : ℚ) (rand : Nat → ℚ) :
    setRandom w h p rand = Except.ok (setRandomArray w h p rand) ∧
    (1 ≤ p → (∀ j, rand j < 1) → ∀ i, i < w * h →
      setRandomArray w h p rand i = 1) ∧
    (p ≤ 0 → (∀ j, 0 ≤ rand j) → ∀ i, i < w * h →
      setRandomArray w h p rand i = 0) := by
  refine ⟨rfl, ?_, ?_⟩
  · intro hp hr i hi
    unfold setRandomArray
    rw [if_pos hi, if_pos (lt_of_lt_of_le (hr i) hp)]
  · intro hp hr i hi
    unfold setRandomArray
    rw [if_pos hi, if_neg (not_lt.mpr (le_trans hp (hr i)))]

/-- C8 witness: probability 2 on a 4×4 grid succeeds and fills cell 5. -/
theorem claim_seeder_validation_witness :
    setRandom 4 4 2 (fun _ => 0) = Except.ok (setRandomArray 4 4 2 (fun _ => 0)) ∧
      setRandomArray 4 4 2 (fun _ => 0) 5 = 1 :=
  ⟨(claim_seeder_validation 4 4 2 (fun _ => 0)).1,
   (claim_seeder_validation 4 4 2 (fun _ => 0)).2.1
     (le_of_lt one_lt_two) (fun _ => zero_lt_one) 5 (by decide)⟩

/-- C9 (confirmed): each invocation writes exactly the row-major index
`y·width + x` of the output buffer, distinct cells write distinct
indices, every read is from the frozen input buffer; hence one dispatch
in any schedule order — and any run of N updates with arbitrary
per-generation permutation schedules — produces bit-identical buffers,
independent of the stale contents of the output buffer. -/
theorem claim_determinism {kw kh : Nat} (hkwh : kw + kh ≤ 32) :
    (∀ x y : Nat, x < 2 ^ kw → y < 2 ^ kh →
        cellIndex (2 ^ kw) (2 ^ kh) x y = y * 2 ^ kw + x) ∧
    (∀ x1 y1 x2 y2 : Nat, x1 < 2 ^ kw → y1 < 2 ^ kh → x2 < 2 ^ kw →
        y2 < 2 ^ kh →
        cellIndex (2 ^ kw) (2 ^ kh) x1 y1 = cellIndex (2 ^ kw) (2 ^ kh) x2 y2 →
        x1 = x2 ∧ y1 = y2) ∧
    (∀ (cur out1 out2 : Nat → Nat) (l1 l2 : List (Nat × Nat)),
        l1.Perm (domainCells (2 ^ kw) (2 ^ kh)) →
        l2.Perm (domainCells (2 ^ kw) (2 ^ kh)) →
        ∀ i, i < 2 ^ kw * 2 ^ kh →
          execCells (2 ^ kw) (2 ^ kh) cur l1 out1 i =
            execCells (2 ^ kw) (2 ^ kh) cur l2 out2 i) ∧
    (∀ (L1 L2 : List (List (Nat × Nat))) (s1 s2 : LifeState),
        L1.length = L2.length →
        (∀ l ∈ L1, l.Perm (domainCells (2 ^ kw) (2 ^ kh))) →
        (∀ l ∈ L2, l.Perm (domainCells (2 ^ kw) (2 ^ kh))) →
        s1.step = s2.step →
        (∀ i, i < 2 ^ kw * 2 ^ kh →
          s1.buffers (s1.step % 2) i = s2.buffers (s2.step % 2) i) →
        ∀ i, i < 2 ^ kw * 2 ^ kh →
          (runWith (2 ^ kw) (2 ^ kh) L1 s1).buffers
              ((runWith (2 ^ kw) (2 ^ kh) L1 s1).step % 2) i =
            (runWith (2 ^ kw) (2 ^ kh) L2 s2).buffers
              ((runWith (2 ^ kw) (2 ^ kh) L2 s2).step % 2) i) := by
  have hw : 0 < 2 ^ kw := Nat.two_pow_pos kw
  have hh : 0 < 2 ^ kh := Nat.two_pow_pos kh
  have hwh : (2 : Nat) ^ kw * 2 ^ kh ≤ U := by
    unfold U
    rw [← pow_add]
    exact Nat.pow_le_pow_right (by norm_num) hkwh
  refine ⟨fun x y hx hy => cellIndex_in_domain hw hh hwh hx hy, ?_, ?_, ?_⟩
  · intro x1 y1 x2 y2 hx1 hy1 hx2 hy2 he
    rw [cellIndex_in_domain hw hh hwh hx1 hy1,
      cellIndex_in_domain hw hh hwh hx2 hy2] at he
    exact encode_inj hx1 hx2 he
  · intro cur out1 out2 l1 l2 h1 h2 i hi
    have hx : i % 2 ^ kw < 2 ^ kw := Nat.mod_lt _ hw
    have hy : i / 2 ^ kw < 2 ^ kh := Nat.div_lt_of_lt_mul hi
    have hdec : (i / 2 ^ kw) * 2 ^ kw + i % 2 ^ kw = i := by
      calc (i / 2 ^ kw) * 2 ^ kw + i % 2 ^ kw
          = 2 ^ kw * (i / 2 ^ kw) + i % 2 ^ kw := by ring
        _ = i := Nat.div_add_mod i (2 ^ kw)
    rw [← hdec, execCells_perm_domain hw hh hwh h1 hx hy,
      execCells_perm_domain hw hh hwh h2 hx hy]
  · intro L1 L2 s1 s2 hlen hL1 hL2 hstep hbuf
    exact (runWith_deterministic hw hh hwh L1 L2 s1 s2 hlen hL1 hL2 hstep hbuf).2

/-- C9 witness: forward and reversed schedules agree on an empty 4×4
grid, with differently-stale output buffers. -/
theorem claim_determinism_witness :
    execCells (2 ^ 2) (2 ^ 2) (fun _ => 0) (domainCells (2 ^ 2) (2 ^ 2))
        (fun _ => 0) 5 =
      execCells (2 ^ 2) (2 ^ 2) (fun _ => 0)
        ((domainCells (2 ^ 2) (2 ^ 2)).reverse) (fun _ => 1) 5 :=
  (claim_determinism (by decide)).2.2.1 (fun _ => 0) (fun _ => 0) (fun _ => 1)
    (domainCells (2 ^ 2) (2 ^ 2)) ((domainCells (2 ^ 2) (2 ^ 2)).reverse)
    (List.Perm.refl _) (List.reverse_perm _) 5 (by decide)

/-- C10 (confirmed): on the seeding domain `0 ≤ x < 2·width`,
`0 ≤ y < height`, the CPU bit-test `setCell` placement and the GPU
comparison-based `cellIndex` compute the same flat index. -/
theorem claim_cpu_gpu_agreement {kw kh : Nat} (hkw : kw ≤ 30) (hkh : kh ≤ 31)
    (hkwh : kw + kh ≤ 32) {x y : Nat} (hx : x < 2 * 2 ^ kw) (hy : y < 2 ^ kh) :
    setCellIndex (2 ^ kw) (2 ^ kh) (x : Int) (y : Int) =
      ((cellIndex (2 ^ kw) (2 ^ kh) x y : Nat) : Int) :=
  setCellIndex_eq_cellIndex hkw hkh hkwh hx hy

/-- C10 witness at a 4×4 grid, past the seam. -/
theorem claim_cpu_gpu_agreement_witness :
    setCellIndex (2 ^ 2) (2 ^ 2) ((5 : Nat) : Int) ((2 : Nat) : Int) =
      ((cellIndex (2 ^ 2) (2 ^ 2) 5 2 : Nat) : Int) :=
  claim_cpu_gpu_agreement (by decide) (by decide) (by decide) (by decide)
    (by decide)

end KleinLife
